import Mathlib

/-!
# Verification of the Fiverr search-results scraper core

Shallow embedding of `src/fiverr_scraper/scraper.py`. The pure parts of the
program (field cleaners, URL normalization, per-card extraction, the page
parser's aggregation, the retry controller's classification and backoff, and
the pagination loop's control flow) are translated into executable Lean
definitions, and the specification's claims are settled against them.

Conventions:
- Python strings are Lean `String`s; functions that inspect characters work on
  `String.data` (the list of characters).
- Python `None` vs a string value is `Option String`; a Python function that
  can raise an exception is modelled with `Except Unit`.
- `float` values arising in `clean_reviews` are modelled as exact rationals
  (`Rat`); the decimal literals the scraper meets are represented exactly.
- BeautifulSoup is an external collaborator: an HTML card is modelled by the
  results of the exact CSS queries the code performs on it (`Card` below), and
  a page document by the results of the two tiers of card selectors.
-/

deriving instance DecidableEq for Except

/-! ## Decimal digits and number rendering (models Python `str(int(...))`) -/

/-- The ten decimal digit characters. -/
def digitChars : List Char := ['0', '1', '2', '3', '4', '5', '6', '7', '8', '9']

/-- The character for a single decimal digit (models Python digit rendering). -/
def digitChar : Nat → Char
  | 0 => '0' | 1 => '1' | 2 => '2' | 3 => '3' | 4 => '4'
  | 5 => '5' | 6 => '6' | 7 => '7' | 8 => '8' | _ => '9'

/-- Numeric value of a digit character, as in the code's `int` conversions. -/
def digitVal (c : Char) : Nat := c.toNat - 48

/-- Accumulate the decimal digits of `n` (most significant first) onto `acc`;
`fuel` bounds the recursion so the definition is structural (any
`fuel > n` is enough). -/
def natToDigitsCore : Nat → Nat → List Char → List Char
  | 0, _, acc => acc
  | fuel + 1, n, acc =>
    if n = 0 then acc
    else natToDigitsCore fuel (n / 10) (digitChar (n % 10) :: acc)

/-- The decimal digits of `n`, most significant first (empty for `0`). -/
def natToDigits (n : Nat) : List Char := natToDigitsCore (n + 1) n []

/-- Decimal rendering of a natural number: models Python `str` on a
nonnegative `int`. -/
def natToStr (n : Nat) : String :=
  if n = 0 then "0" else ⟨natToDigits n⟩

/-- Decimal rendering of an integer: models Python `str` on an `int`. -/
def intToStr (i : Int) : String :=
  if i < 0 then "-" ++ natToStr i.natAbs else natToStr i.toNat

/-- Numeric value of a list of digit characters read left to right, as in
Python `int`/`float` parsing of the digit runs the cleaners produce. -/
def digitsToNat (cs : List Char) : Nat :=
  cs.foldl (fun n c => n * 10 + digitVal c) 0

/-! ## Regex-run extraction shared by the cleaners

Each cleaner calls `re.search` with a character-class-plus pattern such as
`[\d\.,]+`: the match is the maximal run of class characters starting at the
leftmost position holding a class character.  `findRun p cs` returns that run
together with the remainder of the string after it, or `none` when no
character of `cs` satisfies `p` (no match).  -/

def findRun (p : Char → Bool) : List Char → Option (List Char × List Char)
  | [] => none
  | c :: cs =>
    if p c then some ((c :: cs).takeWhile p, (c :: cs).dropWhile p)
    else findRun p cs

/-- Character class `[\d\.]` used by `clean_rating` and `clean_reviews`. -/
def isNumChar (c : Char) : Bool := c.isDigit || c = '.'

/-- Character class `[\d\.,]` used by `clean_price`. -/
def isPriceChar (c : Char) : Bool := c.isDigit || c = '.' || c = ','

/-! ## IEEE-754 binary64 arithmetic, as used by Python `float`

`clean_reviews` runs its matched digit run through `float(...)`, possibly a
float multiplication by `1000`, and `int(...)`.  CPython guarantees
correctly-rounded (round-to-nearest, ties-to-even) decimal-to-binary64
conversion and IEEE-754 multiplication, so those operations are modelled
bit-exactly here: a finite nonnegative double is a significand times a power
of two, decimal parsing and the multiply round the exact value to 53
significand bits (with gradual underflow below `2^-1022` and overflow to
infinity above the top binade), and `int()` truncates a finite value or
raises `OverflowError` on infinity. -/

/-- Number of binary digits of `n` (`0` for `0`); `fuel`-bounded so the
recursion is structural (any `fuel > n` is enough). -/
def bitlenF : Nat → Nat → Nat
  | 0, _ => 0
  | fuel + 1, n => if n = 0 then 0 else bitlenF fuel (n / 2) + 1

def bitlen (n : Nat) : Nat := bitlenF (n + 1) n

/-- Smallest `j ≥ start` with `b ≤ a * 2 ^ j`, searched with `fuel` steps
(for `0 < a`, `fuel = b` always suffices). -/
def negExpF (a b : Nat) : Nat → Nat → Nat
  | 0, j => j
  | fuel + 1, j => if b ≤ a * 2 ^ j then j else negExpF a b fuel (j + 1)

/-- `⌊log₂ (a / b)⌋` for positive naturals `a`, `b`. -/
def floorLog2 (a b : Nat) : Int :=
  if b ≤ a then (bitlen (a / b) : Int) - 1
  else -(negExpF a b b 0 : Int)

/-- `a / b` rounded to the nearest integer, ties to even. -/
def rhe (a b : Nat) : Nat :=
  let q := a / b
  let r := a % b
  if b < 2 * r then q + 1
  else if 2 * r < b then q
  else if q % 2 = 1 then q + 1 else q

/-- A nonnegative Python float: a finite value `m * 2 ^ s`, or infinity. -/
inductive F64 where
  | finite (m : Nat) (s : Int)
  | inf
deriving DecidableEq, Repr

/-- The significand of `a / b` before overflow adjustment: the exact value
divided by `2 ^ (⌊log₂ (a/b)⌋ - 52)` and rounded to the nearest integer,
ties to even — a number in `[2 ^ 52, 2 ^ 53]` for positive `a / b`. -/
def rhe64 (a b : Nat) : Nat :=
  if 0 ≤ floorLog2 a b - 52 then rhe a (b * 2 ^ (floorLog2 a b - 52).toNat)
  else rhe (a * 2 ^ (-(floorLog2 a b - 52)).toNat) b

/-- Round the exact nonnegative rational `a / b` (with `0 < b`) to binary64,
round-to-nearest ties-to-even: normal values carry a 53-bit significand at
scale `⌊log₂ (a/b)⌋ - 52`, values below `2 ^ (-1022)` are rounded at the
fixed subnormal scale `2 ^ (-1074)`, and a rounded value reaching
`2 ^ 1024` overflows to infinity. -/
def roundB64 (a b : Nat) : F64 :=
  if a = 0 then .finite 0 0
  else if floorLog2 a b < -1022 then .finite (rhe (a * 2 ^ 1074) b) (-1074)
  else if rhe64 a b = 2 ^ 53 then
    (if 1023 < floorLog2 a b + 1 then .inf
      else .finite (2 ^ 52) (floorLog2 a b + 1 - 52))
  else if 1023 < floorLog2 a b then .inf
  else .finite (rhe64 a b) (floorLog2 a b - 52)

/-- Python `float * 1000` (the `k`-suffix branch): the exact product rounded
back to binary64. -/
def f64Mul1000 : F64 → F64
  | .inf => .inf
  | .finite m s =>
    if 0 ≤ s then roundB64 (m * 1000 * 2 ^ s.toNat) 1
    else roundB64 (m * 1000) (2 ^ (-s).toNat)

/-- Python `int(...)` on a nonnegative float: truncation for finite values,
`OverflowError` on infinity. -/
def f64Int : F64 → Except Unit Int
  | .inf => .error ()
  | .finite m s =>
    .ok (if 0 ≤ s then ((m * 2 ^ s.toNat : Nat) : Int) else ((m / 2 ^ (-s).toNat : Nat) : Int))

/-- Models Python `float` applied to `match.group(1)` in `clean_reviews` (a
string of digits and dots): defined exactly when the string holds at least
one digit and at most one dot, in which case the decimal it denotes is
rounded to binary64.  `none` models the `ValueError` that `float` raises
otherwise. -/
def parseFloat (cs : List Char) : Option F64 :=
  if cs.any Char.isDigit && cs.count '.' ≤ 1 then
    let intPart := cs.takeWhile (fun c => c ≠ '.')
    let fracPart := (cs.dropWhile (fun c => c ≠ '.')).drop 1
    some (roundB64 (digitsToNat intPart * 10 ^ fracPart.length + digitsToNat fracPart)
      (10 ^ fracPart.length))
  else none

/-! ## Field cleaners (`clean_price`, `clean_reviews`, `clean_rating`) -/

/-- `clean_price` from the source: `None` on an empty string, else the first
maximal run of `[\d\.,]` with commas removed, or `None` when no such run
exists. -/
def clean_price (s : String) : Option String :=
  if s.data = [] then none
  else
    match findRun isPriceChar s.data with
    | some (run, _) => some ⟨run.filter (fun c => c ≠ ',')⟩
    | none => none

/-- `clean_rating` from the source: `None` on an empty string, else the first
maximal run of `[\d\.]`, or `None` when no such run exists. -/
def clean_rating (s : String) : Option String :=
  if s.data = [] then none
  else
    match findRun isNumChar s.data with
    | some (run, _) => some ⟨run⟩
    | none => none

/-- The character filter for `clean_reviews`'s
`.replace('(', '').replace(')', '').replace(',', '')` preprocessing. -/
def keepReviewChar (c : Char) : Bool := c ≠ '(' && c ≠ ')' && c ≠ ','

/-- The `lower()` + parenthesis/comma stripping preprocessing of
`clean_reviews`. -/
def preprocessReviews (s : String) : List Char :=
  (s.data.map Char.toLower).filter keepReviewChar

/-- `clean_reviews` from the source.  `.ok none` is Python `return None`
(empty input), `.ok (some v)` a returned string, `.error ()` an exception
escaping the function: the `ValueError` that `float(match.group(1))` raises
when the matched run is dots-only or has two dots, or the `OverflowError`
that `int(...)` raises when the parsed value overflowed to infinity. -/
def clean_reviews (s : String) : Except Unit (Option String) :=
  if s.data = [] then .ok none
  else
    match findRun isNumChar (preprocessReviews s) with
    | none => .ok (some "0")
    | some (run, rest) =>
      match parseFloat run with
      | none => .error ()
      | some v =>
        if rest.head? = some 'k' then
          match f64Int (f64Mul1000 v) with
          | .error e => .error e
          | .ok n => .ok (some (intToStr n))
        else
          match f64Int v with
          | .error e => .error e
          | .ok n => .ok (some (intToStr n))

/-! ## Python string primitives, modelled on character lists -/

/-- Python `str.strip()`: remove leading and trailing whitespace. -/
def pyStrip (s : String) : String :=
  ⟨((s.data.dropWhile Char.isWhitespace).reverse.dropWhile Char.isWhitespace).reverse⟩

/-- Python `str.lower()` (over the ASCII letters the scraper meets). -/
def pyLower (s : String) : String := ⟨s.data.map Char.toLower⟩

/-- Python `str.startswith(pre)`. -/
def pyStartsWith (s pre : String) : Bool := pre.data.isPrefixOf s.data

/-- Python slicing `s[n:]`. -/
def pyDrop (s : String) (n : Nat) : String := ⟨s.data.drop n⟩

/-! ## Gig URL normalization (`parse_gigs`, title/URL branch) -/

/-- The canonical site origin prepended to root-relative links. -/
def SITE_ORIGIN : String := "https://www.fiverr.com"

/-- Models `gig_url_raw.split('?')[0]`: everything before the first `?`. -/
def stripQuery (s : String) : String := ⟨s.data.takeWhile (fun c => c ≠ '?')⟩

/-- URL normalization from the title/URL branch of the per-card loop:
root-relative links get the site origin prepended and the query stripped,
absolute (`http...`) links get the query stripped, anything else is stored
unmodified (with a warning logged, which the record does not carry). -/
def normalizeGigUrl (raw : String) : String :=
  if pyStartsWith raw "/" then SITE_ORIGIN ++ stripQuery raw
  else if pyStartsWith raw "http" then stripQuery raw
  else raw

/-! ## The card extractor (per-card body of `parse_gigs`)

A `Card` records the outcome of each CSS query the loop body performs on one
gig-card fragment; element text is carried as the raw string the code would
read from `.text` / the attribute.  `sellerContainerCountry` is the country
query scoped to the seller-info container; the code only reaches it when the
seller element was found (the container then always exists, because
`seller_element.parent` is used as fallback).  `flagTitle` is the flag icon's
`title` attribute; `none` covers both "no icon" and "icon without title",
which the code treats identically. -/

structure TitleEl where
  text : String
  href : Option String
deriving DecidableEq, Repr

structure RatingArea where
  ratingEl : Option String
  reviewCountEl : Option String
deriving DecidableEq, Repr

structure Card where
  titleEl : Option TitleEl
  sellerEl : Option String
  sellerContainerCountry : Option String
  sellerLevelEl : Option String
  cardCountry : Option String
  flagTitle : Option String
  priceEl : Option String
  ratingArea : Option RatingArea
  cardRating : Option String
  cardReviewCount : Option String
deriving DecidableEq, Repr

/-- The `gig_info` dictionary at the end of a successful loop body.
`seller_level` and `seller_country` are plain strings because every path
assigns them a string (defaults `"N/A"`); the other fields may remain the
initial `None`. -/
structure GigInfo where
  title : Option String
  seller_name : Option String
  seller_level : String
  seller_country : String
  price : Option String
  num_reviews : Option String
  rating : Option String
  gig_url : Option String
deriving DecidableEq, Repr

def titleOf (c : Card) : Option String :=
  c.titleEl.map (fun t => pyStrip t.text)

/-- The `gig_url` assignment: skipped when there is no title element, no
`href`, or an empty `href` (Python truthiness of `gig_url_raw`). -/
def urlOf (c : Card) : Option String :=
  match c.titleEl with
  | none => none
  | some te =>
    match te.href with
    | none => none
    | some raw => if raw.data = [] then none else some (normalizeGigUrl raw)

def sellerNameOf (c : Card) : Option String :=
  c.sellerEl.map pyStrip

def sellerLevelOf (c : Card) : String :=
  match c.sellerLevelEl with
  | some s => pyStrip s
  | none => "N/A"

/-- The seller-country chain: container-scoped query (only when the seller
element exists), then the whole-card query, then the `from ` prefix strip,
then the flag-icon title, else the initialized `"N/A"`. -/
def countryOf (c : Card) : String :=
  let countryEl : Option String :=
    match (if c.sellerEl.isSome then c.sellerContainerCountry else none) with
    | some t => some t
    | none => c.cardCountry
  match countryEl with
  | some t0 =>
    let t := pyStrip t0
    if pyStartsWith (pyLower t) "from " then pyStrip (pyDrop t 5) else t
  | none =>
    match c.flagTitle with
    | some ft => pyStrip ft
    | none => "N/A"

def priceOf (c : Card) : Option String :=
  match c.priceEl with
  | some p => clean_price (pyStrip p)
  | none => none

/-- Rating: inside the combined rating area when one exists, else the
fallback whole-card query; stays `None` when the chosen query misses. -/
def ratingOf (c : Card) : Option String :=
  match c.ratingArea with
  | some area =>
    match area.ratingEl with
    | some r => clean_rating (pyStrip r)
    | none => none
  | none =>
    match c.cardRating with
    | some r => clean_rating (pyStrip r)
    | none => none

/-- Review count: inside the combined rating area when one exists (staying
`None` when the area has no review-count element), else the fallback
whole-card query with default `"0"`.  `clean_reviews` can raise, which aborts
the whole card. -/
def numReviewsOf (c : Card) : Except Unit (Option String) :=
  match c.ratingArea with
  | some area =>
    match area.reviewCountEl with
    | some rv => clean_reviews (pyStrip rv)
    | none => .ok none
  | none =>
    match c.cardReviewCount with
    | some rv => clean_reviews (pyStrip rv)
    | none => .ok (some "0")

/-- One iteration of the per-card `try` body.  The only exception source in
the model is `clean_reviews`; on `.error` the partially filled `gig_info` is
discarded, exactly as the `except` branch discards it. -/
def extract (c : Card) : Except Unit GigInfo :=
  match numReviewsOf c with
  | .error e => .error e
  | .ok nr =>
    .ok
      { title := titleOf c, seller_name := sellerNameOf c,
        seller_level := sellerLevelOf c, seller_country := countryOf c,
        price := priceOf c, num_reviews := nr, rating := ratingOf c,
        gig_url := urlOf c }

/-- A record appended to `gigs_data`: a parsed `gig_info` dict or the
literal placeholder dict from the `except` branch. -/
inductive GigRecord where
  | parsed (g : GigInfo)
  | errorCard
deriving DecidableEq, Repr

def extractOrError (c : Card) : GigRecord :=
  match extract c with
  | .ok g => .parsed g
  | .error _ => .errorCard

/-- A field value of a record dictionary: Python `None` or a string. -/
inductive FieldVal where
  | null
  | str (s : String)
deriving DecidableEq, Repr

def fieldOfOpt : Option String → FieldVal
  | none => .null
  | some s => .str s

/-- The Python dictionary a `GigRecord` denotes, keys in insertion order.
The parsed dict has the eight keys of the `gig_info` initializer; the
placeholder dict is the seven-key literal from the `except` branch (it has no
`seller_country` key, and its `title` is `"Error parsing card"`). -/
def toDict : GigRecord → List (String × FieldVal)
  | .parsed g =>
    [("title", fieldOfOpt g.title), ("seller_name", fieldOfOpt g.seller_name),
     ("seller_level", .str g.seller_level), ("seller_country", .str g.seller_country),
     ("price", fieldOfOpt g.price), ("num_reviews", fieldOfOpt g.num_reviews),
     ("rating", fieldOfOpt g.rating), ("gig_url", fieldOfOpt g.gig_url)]
  | .errorCard =>
    [("title", .str "Error parsing card"), ("seller_name", .str "Error"),
     ("seller_level", .str "Error"), ("price", .str "Error"),
     ("num_reviews", .str "Error"), ("rating", .str "Error"),
     ("gig_url", .str "Error")]

/-! ## The page parser (`parse_gigs`) -/

/-- A page document, as the two tiers of card selectors see it: the cards the
primary selectors return and the cards the generic fallback scan returns. -/
structure Document where
  primaryCards : List Card
  fallbackCards : List Card
deriving DecidableEq, Repr

/-- Tier selection: the fallback scan runs only when the primary selectors
return no cards. -/
def locatedCards (doc : Document) : List Card :=
  if doc.primaryCards.isEmpty then doc.fallbackCards else doc.primaryCards

/-- The distinguishing log signals of `parse_gigs`: no cards found by either
selector tier, cards found but no data extracted, or a normal parse. -/
inductive ParseSignal where
  | noFragmentsLocated
  | noneParsed
  | parsedOk
deriving DecidableEq, Repr

/-- `parse_gigs` over a located document: one record per located card, in
order; an empty list with the `noFragmentsLocated` signal when both tiers
find nothing.  (The `noneParsed` signal mirrors the
`if not gigs_data and gig_cards` warning of the source.) -/
def parse_gigs (doc : Document) : List GigRecord × ParseSignal :=
  let cards := locatedCards doc
  if cards.isEmpty then ([], .noFragmentsLocated)
  else
    let recs := cards.map extractOrError
    (recs, if recs.isEmpty then .noneParsed else .parsedOk)

/-! ## Fetch-with-retry controller (`get_page_html` and its decorator) -/

def RETRY_ATTEMPTS : Nat := 3
def RETRY_WAIT_MIN_SECONDS : Nat := 2
def RETRY_WAIT_MAX_SECONDS : Nat := 6
def MAX_PAGES_TO_SCRAPE : Nat := 2

/-- What one fetch attempt does, abstracting the browser driver: the page
renders and yields `html`, or a `WebDriverException`/`TimeoutException` is
raised, or some other unexpected exception is raised. -/
inductive AttemptOutcome where
  | success (html : String)
  | transient
  | otherError

/-- Substring test, modelling Python's `in` on strings. -/
def containsSub (hay needle : List Char) : Bool :=
  needle.isPrefixOf hay ||
    match hay with
    | [] => false
    | _ :: t => containsSub t needle

def marker1 : String := "Hmm, something seems to have gone wrong"
def marker2 : String := "No services found for your search"

/-- The empty/error-page marker check of `get_page_html`. -/
def containsMarker (html : String) : Bool :=
  containsSub html.data marker1.data || containsSub html.data marker2.data

/-- The minimal document returned for marker pages. -/
def minimalHtml : String := "<html><body></body></html>"

/-- The body of `get_page_html` for one attempt: a marker page becomes the
minimal document, other successes return the page source, a transient
driver/timeout error re-raises for the retry decorator (`.error`), and any
other exception is swallowed into `return None` (`.ok none`). -/
def getPageHtmlAttempt : AttemptOutcome → Except Unit (Option String)
  | .success html => .ok (some (if containsMarker html then minimalHtml else html))
  | .transient => .error ()
  | .otherError => .ok none

/-- The tenacity `wait_exponential(multiplier=1, min=2, max=6)` wait after
the `n`-th failed attempt: `multiplier * 2^n` clamped into `[min, max]`. -/
def backoffWait (n : Nat) : Nat :=
  max RETRY_WAIT_MIN_SECONDS (min (2 ^ n) RETRY_WAIT_MAX_SECONDS)

/-- The tenacity retry loop around the body: at most `fuel` further attempts,
`attempt` is the 1-based number of the current one.  Returns the overall
result (`.error` models the `RetryError` escaping after the attempt ceiling),
the number of attempts made, and the list of backoff waits slept. -/
def runRetryAux (outcomes : Nat → AttemptOutcome) :
    Nat → Nat → Except Unit (Option String) × Nat × List Nat
  | 0, _ => (.error (), 0, [])
  | fuel + 1, attempt =>
    match getPageHtmlAttempt (outcomes attempt) with
    | .ok v => (.ok v, 1, [])
    | .error _ =>
      if fuel = 0 then (.error (), 1, [])
      else
        let r := runRetryAux outcomes fuel (attempt + 1)
        (r.1, r.2.1 + 1, backoffWait attempt :: r.2.2)

/-- `get_page_html` under its `@retry` decorator, driven by the sequence of
attempt outcomes the environment produces. -/
def get_page_html (outcomes : Nat → AttemptOutcome) :
    Except Unit (Option String) × Nat × List Nat :=
  runRetryAux outcomes RETRY_ATTEMPTS 1

/-! ## Pagination loop of `main`

`fetch page` is what `main` sees for a page: `some html`, or `none` covering
both the `return None` path and an exception after all retries (both set
`html_content = None`).  `parse` stands for `parse_gigs` composed with the
HTML-to-document reading; it is a parameter because the claims about the loop
quantify over what the parser returns. -/

def mainLoopAux (fetch : Nat → Option String) (parse : String → List GigRecord) :
    Nat → Nat → List GigRecord → List GigRecord × Nat
  | 0, page, acc => (acc, page - 1)
  | fuel + 1, page, acc =>
    match fetch page with
    | none => (acc, page)
    | some html =>
      let gigs := parse html
      if gigs.isEmpty then
        if page > 1 then (acc, page)
        else mainLoopAux fetch parse fuel (page + 1) acc
      else mainLoopAux fetch parse fuel (page + 1) (acc ++ gigs)

/-- The pagination loop of `main`: collected records and
`pages_actually_scraped`. -/
def mainLoop (fetch : Nat → Option String) (parse : String → List GigRecord) :
    List GigRecord × Nat :=
  mainLoopAux fetch parse MAX_PAGES_TO_SCRAPE 1 []

/-! ## Helper lemmas -/

theorem findRun_eq_none (p : Char → Bool) :
    ∀ l : List Char, (∀ c ∈ l, p c = false) → findRun p l = none := by
  intro l h
  induction l with
  | nil => rfl
  | cons c cs ih =>
    have hc : p c = false := h c (by simp)
    simp only [findRun, hc]
    simp only [Bool.false_eq_true, if_false]
    exact ih fun x hx => h x (by simp [hx])

theorem findRun_of_all (p : Char → Bool) (l : List Char) (hne : l ≠ [])
    (h : ∀ c ∈ l, p c = true) : findRun p l = some (l, []) := by
  cases l with
  | nil => exact absurd rfl hne
  | cons c cs =>
    have hc : p c = true := h c (by simp)
    simp only [findRun, hc, if_true]
    rw [List.takeWhile_eq_self_iff.mpr h, List.dropWhile_eq_nil_iff.mpr h]

theorem findRun_some (p : Char → Bool) :
    ∀ l run rest, findRun p l = some (run, rest) →
      run ≠ [] ∧ (∀ c ∈ run, p c = true) := by
  intro l
  induction l with
  | nil => intro run rest h; simp [findRun] at h
  | cons c cs ih =>
    intro run rest h
    by_cases hc : p c = true
    · simp only [findRun, hc, if_true, Option.some.injEq, Prod.mk.injEq] at h
      obtain ⟨hrun, _⟩ := h
      constructor
      · rw [← hrun, List.takeWhile_cons_of_pos hc]
        exact List.cons_ne_nil _ _
      · intro x hx
        rw [← hrun] at hx
        exact List.mem_takeWhile_imp hx
    · have hcf : p c = false := by simpa using hc
      simp only [findRun, hcf, Bool.false_eq_true, if_false] at h
      exact ih run rest h

/-- All at once: the facts about the ten digit characters the development
needs. -/
theorem digitChars_props (c : Char) (h : c ∈ digitChars) :
    c.isDigit = true ∧ c.toLower = c ∧ keepReviewChar c = true ∧
      isNumChar c = true ∧ c ≠ '.' ∧ digitVal c < 10 := by
  fin_cases h <;> exact ⟨rfl, rfl, rfl, rfl, by decide, by decide⟩

theorem digitChar_mem (d : Nat) : digitChar d ∈ digitChars := by
  unfold digitChar
  split <;> decide

theorem digitVal_digitChar (d : Nat) (h : d < 10) : digitVal (digitChar d) = d := by
  interval_cases d <;> decide

theorem digitChar_eq_zero_iff (d : Nat) (h : d < 10) : digitChar d = '0' ↔ d = 0 := by
  interval_cases d <;> decide

theorem digitChar_digitVal (c : Char) (h : c ∈ digitChars) :
    digitChar (digitVal c) = c := by
  fin_cases h <;> decide

/-- Lowercasing cannot create a digit or a dot. -/
theorem toLower_not_num (c : Char) (h : isNumChar c = false) :
    isNumChar c.toLower = false := by
  by_cases hc : c.toNat ≥ 65 ∧ c.toNat ≤ 90
  · have hl : c.toLower = Char.ofNat (c.toNat + 32) := by
      simp only [Char.toLower]
      rw [if_pos hc]
    rw [hl]
    obtain ⟨h1, h2⟩ := hc
    generalize hm : Char.toNat c = m at h1 h2
    interval_cases m <;> decide
  · have hl : c.toLower = c := by
      simp only [Char.toLower]
      rw [if_neg hc]
    rw [hl]
    exact h

theorem natToDigitsCore_fuel :
    ∀ (n fuel fuel' : Nat) (acc : List Char), n < fuel → n < fuel' →
      natToDigitsCore fuel n acc = natToDigitsCore fuel' n acc := by
  intro n
  induction n using Nat.strong_induction_on with
  | _ n ih =>
    intro fuel fuel' acc hf hf'
    match fuel, hf with
    | f + 1, _ =>
      match fuel', hf' with
      | f' + 1, _ =>
        by_cases hn : n = 0
        · simp [natToDigitsCore, hn]
        · have hdiv : n / 10 < n := Nat.div_lt_self (Nat.pos_of_ne_zero hn) (by omega)
          simp only [natToDigitsCore, hn, if_false]
          exact ih (n / 10) hdiv f f' _ (by omega) (by omega)

theorem natToDigitsCore_acc :
    ∀ (n fuel : Nat) (acc : List Char), n < fuel →
      natToDigitsCore fuel n acc = natToDigitsCore fuel n [] ++ acc := by
  intro n
  induction n using Nat.strong_induction_on with
  | _ n ih =>
    intro fuel acc hf
    match fuel, hf with
    | f + 1, _ =>
      by_cases hn : n = 0
      · simp [natToDigitsCore, hn]
      · have hdiv : n / 10 < n := Nat.div_lt_self (Nat.pos_of_ne_zero hn) (by omega)
        simp only [natToDigitsCore, hn, if_false]
        rw [ih (n / 10) hdiv f _ (by omega), ih (n / 10) hdiv f [digitChar (n % 10)] (by omega)]
        simp

theorem natToDigits_unfold (n : Nat) (h : n ≠ 0) :
    natToDigits n = natToDigits (n / 10) ++ [digitChar (n % 10)] := by
  have hdiv : n / 10 < n := Nat.div_lt_self (Nat.pos_of_ne_zero h) (by omega)
  unfold natToDigits
  match n, h with
  | m + 1, h =>
    show natToDigitsCore (m + 1) ((m + 1) / 10) (digitChar ((m + 1) % 10) :: []) = _
    rw [natToDigitsCore_acc ((m + 1) / 10) (m + 1) _ (by omega),
      natToDigitsCore_fuel ((m + 1) / 10) (m + 1) ((m + 1) / 10 + 1) [] (by omega) (by omega)]

theorem natToDigits_all_digits (n : Nat) :
    ∀ c ∈ natToDigits n, c ∈ digitChars := by
  induction n using Nat.strong_induction_on with
  | _ n ih =>
    by_cases hn : n = 0
    · intro c hc; simp [hn, natToDigits, natToDigitsCore] at hc
    · intro c hc
      rw [natToDigits_unfold n hn] at hc
      rcases List.mem_append.mp hc with h1 | h2
      · exact ih (n / 10) (Nat.div_lt_self (Nat.pos_of_ne_zero hn) (by omega)) c h1
      · rw [List.mem_singleton.mp h2]
        exact digitChar_mem _

theorem natToDigits_ne_nil (n : Nat) (h : n ≠ 0) : natToDigits n ≠ [] := by
  rw [natToDigits_unfold n h]
  simp

theorem natToDigits_head (n : Nat) (h : n ≠ 0) :
    ∀ c, (natToDigits n).head? = some c → c ≠ '0' := by
  induction n using Nat.strong_induction_on with
  | _ n ih =>
    intro c hc
    rw [natToDigits_unfold n h, List.head?_append] at hc
    by_cases hq : n / 10 = 0
    · have h10 : n < 10 := by omega
      have hmod : n % 10 = n := Nat.mod_eq_of_lt h10
      rw [hq] at hc
      simp only [natToDigits, natToDigitsCore, List.head?_nil, Option.none_or,
        List.head?_cons, Option.some.injEq, if_pos] at hc
      rw [← hc, hmod]
      intro h0
      exact h ((digitChar_eq_zero_iff n h10).mp h0)
    · have hne := natToDigits_ne_nil (n / 10) hq
      obtain ⟨c0, t, hct⟩ := List.exists_cons_of_ne_nil hne
      rw [hct] at hc
      have hcc : c0 = c := by simpa [Option.or] using hc
      have := ih (n / 10) (Nat.div_lt_self (Nat.pos_of_ne_zero h) (by omega)) hq c
      rw [hct] at this
      exact this (by simp [hcc])

theorem digitsToNat_append (l : List Char) (c : Char) :
    digitsToNat (l ++ [c]) = 10 * digitsToNat l + digitVal c := by
  unfold digitsToNat
  rw [List.foldl_append]
  simp [List.foldl, Nat.mul_comm]

theorem foldl_digits_pos :
    ∀ (l : List Char) (a : Nat), 0 < a →
      0 < l.foldl (fun n c => n * 10 + digitVal c) a := by
  intro l
  induction l with
  | nil => intro a ha; simpa using ha
  | cons c cs ih =>
    intro a ha
    simp only [List.foldl_cons]
    exact ih _ (by omega)

theorem digitsToNat_cons_pos (c : Char) (l : List Char) (h : 0 < digitVal c) :
    0 < digitsToNat (c :: l) := by
  unfold digitsToNat
  simp only [List.foldl_cons, Nat.zero_mul, Nat.zero_add]
  exact foldl_digits_pos l _ h

theorem digitsToNat_natToDigits (n : Nat) :
    digitsToNat (natToDigits n) = n := by
  induction n using Nat.strong_induction_on with
  | _ n ih =>
    by_cases hn : n = 0
    · simp [hn, natToDigits, natToDigitsCore, digitsToNat]
    · rw [natToDigits_unfold n hn, digitsToNat_append,
        ih (n / 10) (Nat.div_lt_self (Nat.pos_of_ne_zero hn) (by omega)),
        digitVal_digitChar _ (Nat.mod_lt _ (by omega))]
      omega

theorem digitsToNat_singleton (c : Char) : digitsToNat [c] = digitVal c := by
  simp [digitsToNat, List.foldl]

theorem natToStr_digits :
    ∀ l : List Char, l ≠ [] → (∀ c ∈ l, c ∈ digitChars) →
      (l = ['0'] ∨ l.head? ≠ some '0') →
      natToStr (digitsToNat l) = ⟨l⟩ := by
  intro l
  induction l using List.reverseRecOn with
  | nil => intro h; exact absurd rfl h
  | append_singleton l' c ih =>
    intro hne hd hcanon
    by_cases hl' : l' = []
    · subst hl'
      simp only [List.nil_append]
      have hc : c ∈ digitChars := hd c (by simp)
      fin_cases hc <;> decide
    · obtain ⟨c0, t, hct⟩ := List.exists_cons_of_ne_nil hl'
      have hc0 : c0 ∈ digitChars := hd c0 (by rw [hct]; simp)
      have hcmem : c ∈ digitChars := hd c (by simp)
      have hne0 : c0 ≠ '0' := by
        rcases hcanon with h1 | h2
        · exfalso
          have hlen : (l' ++ [c]).length = 1 := by rw [h1]; rfl
          rw [hct] at hlen
          simp at hlen
        · intro h0
          apply h2
          rw [hct, h0]
          simp
      have hval0 : 0 < digitVal c0 := by
        fin_cases hc0 <;> first | (exfalso; exact hne0 rfl) | decide
      have hpos : 0 < digitsToNat l' := by
        rw [hct]; exact digitsToNat_cons_pos _ _ hval0
      have hvc : digitVal c < 10 := (digitChars_props c hcmem).2.2.2.2.2
      rw [digitsToNat_append]
      have hvpos : 10 * digitsToNat l' + digitVal c ≠ 0 := by omega
      unfold natToStr
      rw [if_neg hvpos]
      have hdiv : (10 * digitsToNat l' + digitVal c) / 10 = digitsToNat l' := by omega
      have hmod : (10 * digitsToNat l' + digitVal c) % 10 = digitVal c := by omega
      rw [natToDigits_unfold _ hvpos, hdiv, hmod, digitChar_digitVal c hcmem]
      have hih := ih hl' (fun x hx => hd x (by simp [hx]))
        (Or.inr (by rw [hct]; simp only [List.head?_cons, ne_eq, Option.some.injEq]; exact hne0))
      unfold natToStr at hih
      rw [if_neg (by omega)] at hih
      have hdata : natToDigits (digitsToNat l') = l' := congrArg String.data hih
      rw [hdata]

/-! ### Facts about the binary64 model -/

theorem isDigit_mem_digitChars (c : Char) (h : c.isDigit = true) : c ∈ digitChars := by
  simp only [Char.isDigit, Bool.and_eq_true, decide_eq_true_eq] at h
  obtain ⟨h1, h2⟩ := h
  have h1' : 48 ≤ c.val.toNat := h1
  have h2' : c.val.toNat ≤ 57 := h2
  have hc : c = Char.ofNat c.toNat := (Char.ofNat_toNat c).symm
  have htn : c.toNat = c.val.toNat := rfl
  rw [hc, htn]
  interval_cases h : c.val.toNat <;> decide

theorem digitsToNat_foldl_acc :
    ∀ (l : List Char) (a : Nat),
      l.foldl (fun n c => n * 10 + digitVal c) a = a * 10 ^ l.length + digitsToNat l := by
  intro l
  induction l with
  | nil => intro a; simp [digitsToNat]
  | cons c t ih =>
    intro a
    simp only [List.foldl_cons, List.length_cons]
    rw [ih (a * 10 + digitVal c)]
    have hd : digitsToNat (c :: t) = digitVal c * 10 ^ t.length + digitsToNat t := by
      show List.foldl (fun n c => n * 10 + digitVal c) (0 * 10 + digitVal c) t = _
      rw [ih (0 * 10 + digitVal c)]
      ring_nf
    rw [hd]
    ring

theorem digitsToNat_lt (l : List Char) (h : ∀ c ∈ l, c ∈ digitChars) :
    digitsToNat l < 10 ^ l.length := by
  induction l with
  | nil => simp [digitsToNat]
  | cons c t ih =>
    have hd : digitsToNat (c :: t) = digitVal c * 10 ^ t.length + digitsToNat t := by
      show List.foldl (fun n c => n * 10 + digitVal c) (0 * 10 + digitVal c) t = _
      rw [digitsToNat_foldl_acc t (0 * 10 + digitVal c)]
      ring_nf
    have hv : digitVal c < 10 := (digitChars_props c (h c (by simp))).2.2.2.2.2
    have ht := ih fun x hx => h x (by simp [hx])
    rw [hd]
    simp only [List.length_cons, pow_succ]
    have hP : 0 < 10 ^ t.length := Nat.pos_pow_of_pos _ (by omega)
    nlinarith

theorem bitlenF_fuel :
    ∀ (n fuel fuel' : Nat), n < fuel → n < fuel' → bitlenF fuel n = bitlenF fuel' n := by
  intro n
  induction n using Nat.strong_induction_on with
  | _ n ih =>
    intro fuel fuel' hf hf'
    match fuel, hf with
    | f + 1, _ =>
      match fuel', hf' with
      | f' + 1, _ =>
        by_cases hn : n = 0
        · simp [bitlenF, hn]
        · have hdiv : n / 2 < n := Nat.div_lt_self (Nat.pos_of_ne_zero hn) (by omega)
          simp only [bitlenF, hn, if_false]
          rw [ih (n / 2) hdiv f f' (by omega) (by omega)]

theorem bitlen_unfold (n : Nat) (h : n ≠ 0) : bitlen n = bitlen (n / 2) + 1 := by
  unfold bitlen
  have h1 : bitlenF (n + 1) n = bitlenF n (n / 2) + 1 := by
    match n, h with
    | m + 1, _ => simp [bitlenF]
  rw [h1, bitlenF_fuel (n / 2) n (n / 2 + 1)
    (Nat.div_lt_self (Nat.pos_of_ne_zero h) (by omega)) (by omega)]

theorem bitlen_spec (n : Nat) (h : n ≠ 0) :
    2 ^ (bitlen n - 1) ≤ n ∧ n < 2 ^ bitlen n := by
  induction n using Nat.strong_induction_on with
  | _ n ih =>
    by_cases h2 : n / 2 = 0
    · have hn1 : n = 1 := by omega
      subst hn1
      decide
    · have hdiv : n / 2 < n := Nat.div_lt_self (Nat.pos_of_ne_zero h) (by omega)
      obtain ⟨ih1, ih2⟩ := ih (n / 2) hdiv h2
      have hkpos : bitlen (n / 2) ≠ 0 := by
        intro h0
        rw [h0] at ih2
        omega
      obtain ⟨k, hk⟩ : ∃ k, bitlen (n / 2) = k + 1 := ⟨bitlen (n / 2) - 1, by omega⟩
      rw [hk] at ih1 ih2
      rw [bitlen_unfold n h, hk]
      constructor
      · have e1 : 2 ^ (k + 1 + 1 - 1) = 2 ^ k * 2 := by
          rw [show k + 1 + 1 - 1 = k + 1 from rfl, pow_succ]
        have e2 : 2 ^ (k + 1 - 1) = 2 ^ k := by rw [Nat.add_sub_cancel]
        rw [e1]
        rw [e2] at ih1
        omega
      · have e1 : 2 ^ (k + 1 + 1) = 2 ^ k * 2 * 2 := by rw [pow_succ, pow_succ]
        have e2 : 2 ^ (k + 1) = 2 ^ k * 2 := pow_succ 2 k
        rw [e1]
        rw [e2] at ih2
        omega

theorem negExpF_spec :
    ∀ (fuel a b j : Nat), b ≤ a * 2 ^ (j + fuel) →
      b ≤ a * 2 ^ negExpF a b fuel j ∧ j ≤ negExpF a b fuel j ∧
        ∀ i, j ≤ i → i < negExpF a b fuel j → a * 2 ^ i < b := by
  intro fuel
  induction fuel with
  | zero =>
    intro a b j hj
    simp only [Nat.add_zero] at hj
    exact ⟨by simpa [negExpF] using hj, by simp [negExpF], fun i h1 h2 => by
      simp [negExpF] at h2; omega⟩
  | succ f ih =>
    intro a b j hj
    by_cases hstep : b ≤ a * 2 ^ j
    · refine ⟨by simpa [negExpF, hstep] using hstep, by simp [negExpF, hstep], ?_⟩
      intro i h1 h2
      simp only [negExpF, hstep, if_true] at h2
      omega
    · have hrec := ih a b (j + 1) (by rw [show j + 1 + f = j + (f + 1) by omega]; exact hj)
      have hne : negExpF a b (f + 1) j = negExpF a b f (j + 1) := by
        simp [negExpF, hstep]
      refine ⟨by rw [hne]; exact hrec.1, by rw [hne]; omega, ?_⟩
      intro i hi1 hi2
      rw [hne] at hi2
      by_cases hij : i = j
      · rw [hij]
        omega
      · exact hrec.2.2 i (by omega) hi2

theorem rhe_bounds (a b : Nat) (hb : 0 < b) :
    2 * rhe a b * b ≤ 2 * a + b ∧ 2 * a ≤ 2 * rhe a b * b + b := by
  have hdm := Nat.div_add_mod a b
  have hr : a % b < b := Nat.mod_lt a hb
  rw [show rhe a b = if b < 2 * (a % b) then a / b + 1
      else if 2 * (a % b) < b then a / b
      else if (a / b) % 2 = 1 then a / b + 1 else a / b from rfl]
  generalize hq : a / b = q at hdm ⊢
  generalize hrr : a % b = r at hdm hr ⊢
  split
  · next h => constructor <;> nlinarith
  · split
    · next h => constructor <;> nlinarith
    · split
      · next h1 h2 h3 => constructor <;> nlinarith
      · next h1 h2 h3 => constructor <;> nlinarith

theorem intToStr_natCast (n : Nat) : intToStr ((n : Nat) : Int) = natToStr n := by
  unfold intToStr
  rw [if_neg (by omega), Int.toNat_ofNat]

theorem floorLog2_of_le (a b : Nat) (h : b ≤ a) :
    floorLog2 a b = (bitlen (a / b) : Int) - 1 := by
  unfold floorLog2
  rw [if_pos h]

theorem floorLog2_of_lt (a b : Nat) (ha : 0 < a) (h : a < b) :
    ∃ j : Nat, floorLog2 a b = -(j : Int) ∧ negExpF a b b 0 = j ∧ 1 ≤ j ∧
      b ≤ a * 2 ^ j ∧ a * 2 ^ (j - 1) < b := by
  have hfuel : b ≤ a * 2 ^ (0 + b) := by
    have h1 : b < 2 ^ b := Nat.lt_two_pow b
    have h2 : 2 ^ b ≤ a * 2 ^ b := Nat.le_mul_of_pos_left _ ha
    simpa using le_trans (le_of_lt h1) h2
  obtain ⟨h1, _h2, h3⟩ := negExpF_spec b a b 0 hfuel
  have hj1 : 1 ≤ negExpF a b b 0 := by
    rcases Nat.eq_zero_or_pos (negExpF a b b 0) with h0 | h0
    · rw [h0] at h1
      simp at h1
      omega
    · exact h0
  refine ⟨negExpF a b b 0, ?_, rfl, hj1, h1, ?_⟩
  · unfold floorLog2
    rw [if_neg (by omega)]
  · exact h3 (negExpF a b b 0 - 1) (by omega) (by omega)

set_option maxHeartbeats 1600000 in
/-- The key fact behind `str(int(float(...)))` on short decimals: rounding
`(I * 10 ^ β + F) / 10 ^ β` to binary64 and truncating recovers exactly the
integer part `I`, provided the numerator stays below `2 ^ 53` (so the
rounding error is smaller than the distance to the next integer).  Stated
for an arbitrary positive denominator `b`. -/
theorem f64Int_roundB64_floor (I F b : Nat) (hb : 0 < b) (hF : F < b)
    (hN : I * b + F < 2 ^ 53) :
    f64Int (roundB64 (I * b + F) b) = .ok ((I : Nat) : Int) := by
  by_cases hN0 : I * b + F = 0
  · have hI0 : I = 0 := by
      have h1 : I * b = 0 := by omega
      rcases Nat.mul_eq_zero.mp h1 with h | h
      · exact h
      · omega
    rw [hN0]
    simp [roundB64, f64Int, hI0]
  · by_cases hcase : b ≤ I * b + F
    · -- Case A: value at least 1, integer part I ≥ 1
      have hI1 : 1 ≤ I := by
        rcases Nat.eq_zero_or_pos I with h | h
        · rw [h] at hcase
          simp at hcase
          omega
        · exact h
      have hdivN : (I * b + F) / b = I := by
        rw [show I * b + F = F + b * I from by ring, Nat.add_mul_div_left F I hb,
          Nat.div_eq_of_lt hF]
        omega
      obtain ⟨hkl, hkh⟩ := bitlen_spec I (by omega)
      have hk1 : 1 ≤ bitlen I := by
        by_contra h0
        push_neg at h0
        have h00 : bitlen I = 0 := by omega
        rw [h00] at hkh
        norm_num at hkh
        omega
      have hIle : I ≤ I * b := Nat.le_mul_of_pos_right I hb
      have hk53 : bitlen I ≤ 53 := by
        by_contra h53
        push_neg at h53
        have h1 : 2 ^ 53 ≤ 2 ^ (bitlen I - 1) := Nat.pow_le_pow_right (by omega) (by omega)
        omega
      have hE : floorLog2 (I * b + F) b = (bitlen I : Int) - 1 := by
        rw [floorLog2_of_le _ _ hcase, hdivN]
      have hku : bitlen I + (53 - bitlen I) = 53 := by omega
      have hbu : b < 2 ^ (53 - bitlen I) * 2 := by
        have h1 : 2 ^ (bitlen I - 1) * b ≤ I * b := Nat.mul_le_mul_right b hkl
        have h2 : 2 ^ (bitlen I - 1) * b < 2 ^ 53 := by omega
        rw [show (53 : Nat) = (bitlen I - 1) + ((53 - bitlen I) + 1) from by omega,
          pow_add, pow_succ] at h2
        exact Nat.lt_of_mul_lt_mul_left h2
      have hrhe64 : rhe64 (I * b + F) b = rhe ((I * b + F) * 2 ^ (53 - bitlen I)) b := by
        unfold rhe64
        rw [hE]
        by_cases hk' : bitlen I = 53
        · rw [if_pos (by omega)]
          have ht : ((bitlen I : Int) - 1 - 52).toNat = 0 := by omega
          have hu0 : 53 - bitlen I = 0 := by omega
          rw [ht, hu0]
          norm_num
        · rw [if_neg (by omega)]
          have ht : (-((bitlen I : Int) - 1 - 52)).toNat = 53 - bitlen I := by omega
          rw [ht]
      obtain ⟨hub, hlb⟩ := rhe_bounds ((I * b + F) * 2 ^ (53 - bitlen I)) b hb
      have hP : 0 < 2 ^ (53 - bitlen I) := Nat.pos_pow_of_pos _ (by omega)
      have hmlo : I * 2 ^ (53 - bitlen I) ≤ rhe ((I * b + F) * 2 ^ (53 - bitlen I)) b := by
        by_contra hc
        push_neg at hc
        nlinarith [hlb, mul_le_mul_right' (Nat.succ_le_of_lt hc) (2 * b), hb, hP]
      have hmhi : rhe ((I * b + F) * 2 ^ (53 - bitlen I)) b < (I + 1) * 2 ^ (53 - bitlen I) := by
        by_contra hc
        push_neg at hc
        nlinarith [hub, mul_le_mul_right' hc (2 * b),
          mul_le_mul_right' (Nat.succ_le_of_lt hF) (2 * 2 ^ (53 - bitlen I)), hbu]
      have hmtop : rhe ((I * b + F) * 2 ^ (53 - bitlen I)) b < 2 ^ 53 := by
        have h1 : (I + 1) * 2 ^ (53 - bitlen I) ≤ 2 ^ bitlen I * 2 ^ (53 - bitlen I) :=
          Nat.mul_le_mul_right _ (by omega)
        rw [← pow_add, hku] at h1
        exact lt_of_lt_of_le hmhi h1
      unfold roundB64
      rw [if_neg hN0, hE]
      rw [if_neg (by omega), if_neg (by rw [hrhe64]; omega), if_neg (by omega), hrhe64]
      by_cases hk' : bitlen I = 53
      · have hu0 : 53 - bitlen I = 0 := by omega
        rw [hu0] at hmlo hmhi ⊢
        simp only [pow_zero, mul_one] at hmlo hmhi ⊢
        have hmeq : rhe (I * b + F) b = I := by omega
        rw [hmeq, hk']
        simp [f64Int]
      · simp only [f64Int]
        rw [if_neg (by omega)]
        have hst : (-((bitlen I : Int) - 1 - 52)).toNat = 53 - bitlen I := by omega
        rw [hst, Nat.div_eq_of_lt_le hmlo hmhi]
    · -- Case B: value below 1, integer part 0
      push_neg at hcase
      have hI0 : I = 0 := by
        by_contra hI
        have h1 : b ≤ I * b := Nat.le_mul_of_pos_left b (Nat.pos_of_ne_zero hI)
        omega
      subst hI0
      simp only [Nat.zero_mul, Nat.zero_add] at hN0 hN hcase ⊢
      have hFpos : 0 < F := Nat.pos_of_ne_zero hN0
      obtain ⟨j, hEj, _hjdef, hj1, hjub, hjlb⟩ := floorLog2_of_lt F b hFpos hcase
      by_cases hsubn : 1022 < j
      · -- subnormal branch: the rounded value is far below 1
        unfold roundB64
        rw [if_neg hN0, hEj, if_pos (by omega)]
        simp only [f64Int]
        rw [if_neg (by omega)]
        have h1022 : F * 2 ^ 1022 < b := by
          have h1 : F * 2 ^ 1022 ≤ F * 2 ^ (j - 1) :=
            Nat.mul_le_mul_left F (Nat.pow_le_pow_right (by omega) (by omega))
          omega
        obtain ⟨hub, _⟩ := rhe_bounds (F * 2 ^ 1074) b hb
        have he : F * 2 ^ 1074 = F * 2 ^ 1022 * 2 ^ 52 := by
          rw [mul_assoc, ← pow_add]
        have h2 : 2 * rhe (F * 2 ^ 1074) b * b < (2 * 2 ^ 52 + 1) * b := by
          nlinarith [hub, mul_lt_mul_of_pos_right h1022 (show 0 < 2 * 2 ^ 52 by positivity)]
        have h3 : 2 * rhe (F * 2 ^ 1074) b < 2 * 2 ^ 52 + 1 := Nat.lt_of_mul_lt_mul_right h2
        have hm74 : rhe (F * 2 ^ 1074) b < 2 ^ 1074 := by
          have h4 : (2 : Nat) ^ 52 < 2 ^ 1074 := Nat.pow_lt_pow_right (by omega) (by omega)
          omega
        have ht : ((-(-1074 : Int))).toNat = 1074 := by omega
        rw [ht, Nat.div_eq_of_lt hm74]
      · push_neg at hsubn
        have hrhe64 : rhe64 F b = rhe (F * 2 ^ (52 + j)) b := by
          unfold rhe64
          rw [hEj, if_neg (by omega)]
          have ht : (-(-(j : Int) - 52)).toNat = 52 + j := by omega
          rw [ht]
        obtain ⟨hub, hlb⟩ := rhe_bounds (F * 2 ^ (52 + j)) b hb
        have hP : 0 < 2 ^ (52 + j) := Nat.pos_pow_of_pos _ (by omega)
        have hm2u : rhe (F * 2 ^ (52 + j)) b ≤ 2 ^ (52 + j) := by
          by_contra hc
          push_neg at hc
          nlinarith [hub, mul_le_mul_right' (Nat.succ_le_of_lt hc) (2 * b),
            mul_le_mul_right' (Nat.succ_le_of_lt hcase) (2 * 2 ^ (52 + j)), hb]
        have hmne : rhe (F * 2 ^ (52 + j)) b ≠ 2 ^ (52 + j) := by
          intro hmeq
          have h1 : 2 * 2 ^ (52 + j) * b ≤ 2 * (F * 2 ^ (52 + j)) + b := by
            have h1' := hub
            rw [hmeq] at h1'
            exact h1'
          have h2 : b * 2 ^ 52 ≤ F * 2 ^ (52 + j) := by
            calc b * 2 ^ 52 ≤ F * 2 ^ j * 2 ^ 52 := Nat.mul_le_mul_right _ hjub
              _ = F * 2 ^ (52 + j) := by ring
          have h3 : F + 1 ≤ b := hcase
          have h4 : F + 1 ≤ 2 * 2 ^ 52 := by omega
          nlinarith [mul_le_mul_right' h1 (2 ^ 52), h2,
            mul_le_mul_right' h3 (2 * 2 ^ (52 + j) * 2 ^ 52),
            mul_le_mul_right' h4 (2 ^ (52 + j)), hP]
        by_cases hbump : rhe (F * 2 ^ (52 + j)) b = 2 ^ 53
        · have hj2 : 2 ≤ j := by
            by_contra hj'
            push_neg at hj'
            interval_cases j
            exact hmne (by rw [hbump])
          unfold roundB64
          rw [if_neg hN0, hEj, if_neg (by omega), if_pos (by rw [hrhe64]; exact hbump)]
          rw [if_neg (by omega)]
          simp only [f64Int]
          rw [if_neg (by omega)]
          have ht : (-(-(j : Int) + 1 - 52)).toNat = j + 51 := by omega
          rw [ht, Nat.div_eq_of_lt (Nat.pow_lt_pow_right (by omega) (by omega))]
        · have hmlt : rhe (F * 2 ^ (52 + j)) b < 2 ^ (52 + j) := lt_of_le_of_ne hm2u hmne
          unfold roundB64
          rw [if_neg hN0, hEj, if_neg (by omega),
            if_neg (by rw [hrhe64]; exact hbump), if_neg (by omega), hrhe64]
          simp only [f64Int]
          rw [if_neg (by omega)]
          have ht : (-(-(j : Int) - 52)).toNat = 52 + j := by omega
          rw [ht, Nat.div_eq_of_lt hmlt]

theorem takeWhile_append_middle (p : Char → Bool) (i f' : List Char) (c : Char)
    (hi : ∀ x ∈ i, p x = true) (hc : p c = false) :
    (i ++ c :: f').takeWhile p = i ∧ (i ++ c :: f').dropWhile p = c :: f' := by
  induction i with
  | nil => simp [List.takeWhile_cons, List.dropWhile_cons, hc]
  | cons a t ih =>
    have ha : p a = true := hi a (by simp)
    obtain ⟨h1, h2⟩ := ih (fun x hx => hi x (by simp [hx]))
    simp [List.takeWhile_cons, List.dropWhile_cons, ha, h1, h2]

/-- `parseFloat` on a dot-free digit run: the denoted integer, rounded. -/
theorem parseFloat_digits (l : List Char)
    (hdot : ∀ x ∈ l, ¬x = '.') (hany : l.any Char.isDigit = true) :
    parseFloat l = some (roundB64 (digitsToNat l) 1) := by
  unfold parseFloat
  rw [if_pos]
  · rw [List.takeWhile_eq_self_iff.mpr (fun x hx => by simpa using hdot x hx),
      List.dropWhile_eq_nil_iff.mpr (fun x hx => by simpa using hdot x hx)]
    simp [show digitsToNat ([] : List Char) = 0 from rfl]
  · have hc : l.count '.' = 0 := List.count_eq_zero.mpr (fun h => hdot '.' h rfl)
    simp [hany, hc]

/-- `parseFloat` on a run of the form `⟨digits⟩.⟨digits⟩`: the denoted decimal
fraction, rounded. -/
theorem parseFloat_split (run i f : List Char)
    (hsplit : run = i ++ '.' :: f)
    (hidot : ∀ x ∈ i, ¬x = '.') (hfdot : ∀ x ∈ f, ¬x = '.')
    (hany : run.any Char.isDigit = true) :
    parseFloat run =
      some (roundB64 (digitsToNat i * 10 ^ f.length + digitsToNat f) (10 ^ f.length)) := by
  have hci : i.count '.' = 0 := List.count_eq_zero.mpr (fun h => hidot '.' h rfl)
  have hcf : f.count '.' = 0 := List.count_eq_zero.mpr (fun h => hfdot '.' h rfl)
  obtain ⟨htake, hdrop⟩ := takeWhile_append_middle (fun c => decide ¬c = '.') i f '.'
    (fun x hx => by simpa using hidot x hx) (by simp)
  unfold parseFloat
  rw [if_pos]
  · rw [hsplit, htake, hdrop]
    simp
  · have hcount : run.count '.' ≤ 1 := by
      rw [hsplit, List.count_append, List.count_cons]
      simp [hci, hcf]
    simp [hany, hcount]

def canonicalDigits (s : String) : Bool :=
  !s.data.isEmpty && s.data.all (fun c => decide (c ∈ digitChars)) &&
    (decide (s.data = ['0']) || s.data.head? != some '0')

theorem canonicalDigits_spec (s : String) (h : canonicalDigits s = true) :
    s.data ≠ [] ∧ (∀ c ∈ s.data, c ∈ digitChars) ∧
      (s.data = ['0'] ∨ s.data.head? ≠ some '0') := by
  unfold canonicalDigits at h
  simp only [Bool.and_eq_true, Bool.or_eq_true, List.all_eq_true, decide_eq_true_eq,
    bne_iff_ne, ne_eq, Bool.not_eq_true', List.isEmpty_eq_false] at h
  obtain ⟨⟨h1, h2⟩, h3⟩ := h
  exact ⟨h1, h2, h3⟩

/-- On a canonical digit string whose value stays below `2 ^ 53` (so the
binary64 round-trip is exact), `clean_reviews` is the identity (wrapped in
its success constructors). -/
theorem clean_reviews_canonical (s : String) (h : canonicalDigits s = true)
    (hlt : digitsToNat s.data < 2 ^ 53) :
    clean_reviews s = .ok (some s) := by
  obtain ⟨hne, hdig, hcanon⟩ := canonicalDigits_spec s h
  have hprops : ∀ c ∈ s.data, _ := fun c hc => digitChars_props c (hdig c hc)
  have hpre : preprocessReviews s = s.data := by
    unfold preprocessReviews
    rw [List.map_congr_left (fun a ha => (hprops a ha).2.1), List.map_id',
      List.filter_eq_self.mpr (fun a ha => (hprops a ha).2.2.1)]
  have hrun : findRun isNumChar s.data = some (s.data, []) :=
    findRun_of_all _ _ hne (fun c hc => (hprops c hc).2.2.2.1)
  have hany : s.data.any Char.isDigit = true := by
    rw [List.any_eq_true]
    obtain ⟨c0, t, hct⟩ := List.exists_cons_of_ne_nil hne
    exact ⟨c0, by rw [hct]; simp, (hprops c0 (by rw [hct]; simp)).1⟩
  have hnum : parseFloat s.data = some (roundB64 (digitsToNat s.data) 1) :=
    parseFloat_digits s.data (fun x hx => (hprops x hx).2.2.2.2.1) hany
  have hfi : f64Int (roundB64 (digitsToNat s.data) 1) =
      .ok ((digitsToNat s.data : Nat) : Int) := by
    have h1 := f64Int_roundB64_floor (digitsToNat s.data) 0 1 (by omega) (by omega)
      (by omega)
    simpa using h1
  unfold clean_reviews
  rw [if_neg hne, hpre, hrun]
  simp only []
  rw [hnum]
  simp only [List.head?_nil, reduceCtorEq, if_false]
  rw [hfi]
  simp only []
  rw [intToStr_natCast, natToStr_digits s.data hne hdig hcanon]

theorem clean_rating_some (s r : String) (h : clean_rating s = some r) :
    r.data ≠ [] ∧ (∀ c ∈ r.data, isNumChar c = true) := by
  unfold clean_rating at h
  by_cases hs : s.data = []
  · rw [if_pos hs] at h
    exact absurd h (by simp)
  · rw [if_neg hs] at h
    cases heq : findRun isNumChar s.data with
    | none => rw [heq] at h; exact absurd h (by simp)
    | some pr =>
      obtain ⟨run, rest⟩ := pr
      rw [heq] at h
      simp only [Option.some.injEq] at h
      obtain ⟨hne, hall⟩ := findRun_some _ _ _ _ heq
      subst h
      exact ⟨hne, hall⟩

theorem clean_rating_idem (s r : String) (h : clean_rating s = some r) :
    clean_rating r = some r := by
  obtain ⟨hne, hall⟩ := clean_rating_some s r h
  unfold clean_rating
  rw [if_neg hne, findRun_of_all _ _ hne hall]

theorem clean_price_some (s r : String) (h : clean_price s = some r) :
    (∀ c ∈ r.data, isPriceChar c = true) ∧
      (∀ c ∈ r.data, (decide (c ≠ ',')) = true) := by
  unfold clean_price at h
  by_cases hs : s.data = []
  · rw [if_pos hs] at h
    exact absurd h (by simp)
  · rw [if_neg hs] at h
    cases heq : findRun isPriceChar s.data with
    | none => rw [heq] at h; exact absurd h (by simp)
    | some pr =>
      obtain ⟨run, rest⟩ := pr
      rw [heq] at h
      simp only [Option.some.injEq] at h
      obtain ⟨_, hall⟩ := findRun_some _ _ _ _ heq
      subst h
      constructor
      · intro c hc
        exact hall c (List.mem_filter.mp hc).1
      · intro c hc
        exact (List.mem_filter.mp hc).2

theorem clean_price_idem (s r : String) (h : clean_price s = some r)
    (hne : r.data ≠ []) : clean_price r = some r := by
  obtain ⟨hall, hnc⟩ := clean_price_some s r h
  unfold clean_price
  rw [if_neg hne, findRun_of_all _ _ hne hall]
  simp only []
  rw [List.filter_eq_self.mpr hnc]

theorem clean_reviews_no_num (s : String) (hne : s.data ≠ [])
    (h : ∀ c ∈ s.data, isNumChar c = false) : clean_reviews s = .ok (some "0") := by
  unfold clean_reviews
  rw [if_neg hne]
  have hnone : findRun isNumChar (preprocessReviews s) = none := by
    apply findRun_eq_none
    intro c hc
    unfold preprocessReviews at hc
    have hc' := (List.mem_filter.mp hc).1
    obtain ⟨a, ha, rfl⟩ := List.mem_map.mp hc'
    exact toLower_not_num a (h a ha)
  rw [hnone]

/-- The decimal rendering of a natural number never contains a dot. -/
theorem natToStr_no_dot (n : Nat) : ∀ c ∈ (natToStr n).data, c ≠ '.' := by
  intro c hc
  unfold natToStr at hc
  by_cases hn : n = 0
  · rw [if_pos hn] at hc
    have h0 : c ∈ ['0'] := hc
    rw [List.mem_singleton.mp h0]
    decide
  · rw [if_neg hn] at hc
    exact (digitChars_props c (natToDigits_all_digits n c hc)).2.2.2.2.1

/-! ## Claims about the field cleaners (C2, C8, C10) -/

/-- C2 counterexample: `clean_reviews` does *not* return `"0"` on the empty
string (it returns Python `None`), and an input with no digit run but a dot
(`"..."`) makes `float` raise instead of returning `"0"`. -/
theorem c2_counterexample :
    clean_reviews "" = .ok none ∧ clean_reviews "..." = .error () := by
  constructor <;> decide

/-- C2 (amended): `clean_reviews` returns `None` (absence) on the empty
string; on a nonempty input containing neither a digit nor a dot it returns
the canonical zero string `"0"`; and the two concrete examples
`clean_reviews("(1.2k)") == "1200"` and `clean_reviews("25") == "25"` hold.
(An input containing a dot but no digit raises `ValueError` instead.) -/
theorem c2_amended :
    clean_reviews "" = .ok none ∧
    clean_reviews "(1.2k)" = .ok (some "1200") ∧
    clean_reviews "25" = .ok (some "25") ∧
    (∀ s : String, s.data ≠ [] → (∀ c ∈ s.data, isNumChar c = false) →
      clean_reviews s = .ok (some "0")) := by
  exact ⟨by decide, by decide, by decide, clean_reviews_no_num⟩

/-- C2 witness: the general no-digit-no-dot clause of `c2_amended` applied to
the concrete input `"garbage"`. -/
theorem c2_amended_witness : clean_reviews "garbage" = .ok (some "0") :=
  c2_amended.2.2.2 "garbage" (by decide) (by decide)

/-- C8 counterexample: re-cleaning an already-cleaned output of `clean_price`
does not always return it unchanged (`clean_price(",") == ""` but
`clean_price("")` is `None`); and `clean_reviews` is not the identity on all
canonical digit strings: at `"9007199254740993"` (the first integer binary64
cannot represent) the `float` round-trip lands on `9007199254740992`. -/
theorem c8_counterexample :
    clean_price "," = some "" ∧ clean_price "" = none ∧
    canonicalDigits "9007199254740993" = true ∧
    clean_reviews "9007199254740993" = .ok (some "9007199254740992") := by
  refine ⟨by decide, by decide, by decide, by decide⟩

/-- C8 (amended): `clean_reviews` is idempotent on canonical digit strings
whose value stays below `2 ^ 53` — there it is in fact the identity, while
above `2 ^ 53` the `float` round-trip can move to a neighbouring
representable integer; re-cleaning a *nonempty* `clean_price` output returns
it unchanged (the output can only be empty for degenerate inputs such as
`","`); re-cleaning a `clean_rating` output always returns it unchanged. -/
theorem c8_amended :
    (∀ s : String, canonicalDigits s = true → digitsToNat s.data < 2 ^ 53 →
      clean_reviews s = .ok (some s)) ∧
    (∀ s y : String, canonicalDigits s = true → digitsToNat s.data < 2 ^ 53 →
      clean_reviews s = .ok (some y) → clean_reviews y = clean_reviews s) ∧
    (∀ s r : String, clean_price s = some r → r.data ≠ [] → clean_price r = some r) ∧
    (∀ s r : String, clean_rating s = some r → clean_rating r = some r) := by
  refine ⟨clean_reviews_canonical, ?_, clean_price_idem, clean_rating_idem⟩
  intro s y hs hlt hy
  have hid := clean_reviews_canonical s hs hlt
  rw [hid] at hy
  simp only [Except.ok.injEq, Option.some.injEq] at hy
  subst hy
  rfl

/-- C8 witness: `c8_amended` applied to the concrete inputs `"25"`,
`"$10.50"` and `"4.9 stars"`. -/
theorem c8_amended_witness :
    clean_reviews "25" = .ok (some "25") ∧
    clean_reviews "25" = clean_reviews "25" ∧
    clean_price "10.50" = some "10.50" ∧
    clean_rating "4.9" = some "4.9" :=
  ⟨c8_amended.1 "25" (by decide) (by decide),
    c8_amended.2.1 "25" "25" (by decide) (by decide)
      (c8_amended.1 "25" (by decide) (by decide)),
    c8_amended.2.2.1 "$10.50" "10.50" (by decide) (by decide),
    c8_amended.2.2.2 "4.9 stars" "4.9" (by decide)⟩

/-- C10 counterexample: the claimed universal truncation fails, because the
code truncates `float(run)`, not the exact decimal: `float` rounds
`"2.9999999999999999999"` up to `3.0`, so `clean_reviews` returns `"3"`
where truncating the decimal itself would give `"2"`. -/
theorem c10_counterexample :
    clean_reviews "2.9999999999999999999" = .ok (some "3") ∧
    ("3" : String) ≠ "2" := by
  refine ⟨by decide, by decide⟩

/-- C10 (amended): when the first digit/dot run of the (preprocessed) input
has the form `⟨digits⟩.⟨digits⟩` with a nonempty integer part, no `k` suffix
follows, and the run's digits denote a value below `2 ^ 53` (so the binary64
rounding error cannot cross an integer), `clean_reviews` returns the decimal
rendering of the integer part — the fractional digits are discarded and the
run is not preserved verbatim.  (For longer runs the `float` rounding can
move the result past the truncation, as the counterexample shows.) -/
theorem c10_decimal_truncation :
    ∀ (s : String) (run rest i f : List Char),
      s.data ≠ [] →
      findRun isNumChar (preprocessReviews s) = some (run, rest) →
      run = i ++ '.' :: f →
      (∀ c ∈ i, c ∈ digitChars) →
      (∀ c ∈ f, c ∈ digitChars) →
      i ≠ [] →
      rest.head? ≠ some 'k' →
      digitsToNat i * 10 ^ f.length + digitsToNat f < 2 ^ 53 →
      clean_reviews s = .ok (some (natToStr (digitsToNat i))) ∧
        '.' ∈ run ∧ natToStr (digitsToNat i) ≠ (⟨run⟩ : String) := by
  intro s run rest i f hne hrun hsplit hdi hdf hine hk hbound
  have hidot : ∀ x ∈ i, ¬x = '.' :=
    fun x hx => (digitChars_props x (hdi x hx)).2.2.2.2.1
  have hfdot : ∀ x ∈ f, ¬x = '.' :=
    fun x hx => (digitChars_props x (hdf x hx)).2.2.2.2.1
  have hany : run.any Char.isDigit = true := by
    obtain ⟨c0, t0, hc0⟩ := List.exists_cons_of_ne_nil hine
    rw [hsplit, hc0]
    have hd0 : c0.isDigit = true :=
      (digitChars_props c0 (hdi c0 (by rw [hc0]; simp))).1
    simp [hd0]
  have hpf := parseFloat_split run i f hsplit hidot hfdot hany
  have hfle : digitsToNat f < 10 ^ f.length := digitsToNat_lt f hdf
  have hfi := f64Int_roundB64_floor (digitsToNat i) (digitsToNat f) (10 ^ f.length)
    (Nat.pos_pow_of_pos _ (by omega)) hfle hbound
  refine ⟨?_, by rw [hsplit]; simp, ?_⟩
  · unfold clean_reviews
    rw [if_neg hne, hrun]
    simp only []
    rw [hpf]
    simp only []
    rw [if_neg hk, hfi]
    simp only []
    rw [intToStr_natCast]
  · intro heq
    have hmem : '.' ∈ (natToStr (digitsToNat i)).data := by
      rw [heq]
      show '.' ∈ run
      rw [hsplit]
      simp
    exact natToStr_no_dot (digitsToNat i) '.' hmem rfl

/-- C10 witness: `c10_decimal_truncation` applied to the concrete input
`"4.7"`: the result is the truncated string `"4"`, not the verbatim
`"4.7"`. -/
theorem c10_witness :
    clean_reviews "4.7" = .ok (some "4") ∧ ("4" : String) ≠ "4.7" := by
  have h := c10_decimal_truncation "4.7" ['4', '.', '7'] [] ['4'] ['7']
    (by decide) (by decide) rfl (by decide) (by decide) (by decide)
    (by decide) (by decide)
  have h1 := h.1
  rw [show natToStr (digitsToNat ['4']) = "4" from by decide] at h1
  exact ⟨h1, by decide⟩

/-! ## Claims about the card extractor and the page parser (C1, C3, C7, C9) -/

/-- A card on which every CSS query misses. -/
def emptyCard : Card := ⟨none, none, none, none, none, none, none, none, none, none⟩

/-- A card whose combined rating area is located but holds no review-count
element. -/
def cardNoReviewInArea : Card := { emptyCard with ratingArea := some ⟨none, none⟩ }

/-- A card whose review-count text makes `clean_reviews` raise
(`float("...")` raises `ValueError`), driving the loop into its `except`
branch. -/
def cardReviewError : Card := { emptyCard with ratingArea := some ⟨none, some "..."⟩ }

/-- C1 counterexample: a card with a rating area but no review-count element
inside it yields a record that is not the sentinel-error record and whose
`num_reviews` entry is `None` (absent), refuting the claimed `"0"` default on
this path. -/
theorem c1_counterexample :
    extractOrError cardNoReviewInArea ≠ .errorCard ∧
      (toDict (extractOrError cardNoReviewInArea)).lookup "num_reviews" =
        some .null := by
  constructor <;> decide

/-- C1 (amended): every non-error record carries `seller_country` (a string,
never absent) and a `num_reviews` entry; `num_reviews` defaults to `"0"` only
on the fallback path where no combined rating area was located and the
whole-card review query also missed; when a rating area exists but holds no
review-count element, `num_reviews` stays `None`. -/
theorem c1_field_presence :
    ∀ (c : Card) (g : GigInfo), extract c = .ok g →
      (("seller_country", FieldVal.str g.seller_country) ∈ toDict (.parsed g) ∧
        ("num_reviews", fieldOfOpt g.num_reviews) ∈ toDict (.parsed g)) ∧
      (c.ratingArea = none → c.cardReviewCount = none → g.num_reviews = some "0") ∧
      (∀ a, c.ratingArea = some a → a.reviewCountEl = none → g.num_reviews = none) := by
  intro c g hg
  unfold extract at hg
  cases hnr : numReviewsOf c with
  | error e => rw [hnr] at hg; exact absurd hg (by simp)
  | ok nr =>
    rw [hnr] at hg
    simp only [Except.ok.injEq] at hg
    subst hg
    refine ⟨⟨by simp [toDict], by simp [toDict]⟩, ?_, ?_⟩
    · intro h1 h2
      unfold numReviewsOf at hnr
      rw [h1] at hnr
      simp only [] at hnr
      rw [h2] at hnr
      simp only [Except.ok.injEq] at hnr
      simpa using hnr.symm
    · intro a ha hb
      unfold numReviewsOf at hnr
      rw [ha] at hnr
      simp only [] at hnr
      rw [hb] at hnr
      simp only [Except.ok.injEq] at hnr
      simpa using hnr.symm

/-- C1 witness: `c1_field_presence` applied to the all-queries-miss card,
whose record defaults `seller_country` to `"N/A"` and `num_reviews` to
`"0"`. -/
theorem c1_field_presence_witness :
    ("seller_country", FieldVal.str "N/A") ∈
        toDict (.parsed ⟨none, none, "N/A", "N/A", none, some "0", none, none⟩) ∧
      (⟨none, none, "N/A", "N/A", none, some "0", none, none⟩ : GigInfo).num_reviews =
        some "0" := by
  have h := c1_field_presence emptyCard
    ⟨none, none, "N/A", "N/A", none, some "0", none, none⟩ (by decide)
  exact ⟨h.1.1, h.2.1 rfl rfl⟩

/-- C3 counterexample: the sentinel record's key set differs from a normal
record's (it has no `seller_country` key), and its `title` carries
`"Error parsing card"`, not the same marker as the other fields. -/
theorem c3_counterexample :
    (toDict GigRecord.errorCard).map Prod.fst ≠
        (toDict (extractOrError emptyCard)).map Prod.fst ∧
      (toDict GigRecord.errorCard).lookup "seller_country" = none ∧
      (toDict GigRecord.errorCard).lookup "title" =
        some (.str "Error parsing card") := by
  refine ⟨by decide, by decide, by decide⟩

/-- C3 (amended): when extraction of a fragment raises, the loop substitutes
the literal placeholder record, so the parser still emits exactly one record
per located fragment; the placeholder carries `"Error parsing card"` in
`title` and `"Error"` in the six other fields, and has no `seller_country`
key. -/
theorem c3_sentinel_record :
    ∀ doc : Document,
      ((parse_gigs doc).1.length = (locatedCards doc).length) ∧
      (∀ c : Card, extract c = .error () → extractOrError c = .errorCard) ∧
      toDict .errorCard =
        [("title", .str "Error parsing card"), ("seller_name", .str "Error"),
         ("seller_level", .str "Error"), ("price", .str "Error"),
         ("num_reviews", .str "Error"), ("rating", .str "Error"),
         ("gig_url", .str "Error")] := by
  intro doc
  refine ⟨?_, ?_, rfl⟩
  · unfold parse_gigs
    by_cases h : (locatedCards doc).isEmpty
    · rw [if_pos h]
      simp [List.isEmpty_iff.mp h]
    · rw [if_neg h]
      simp
  · intro c hc
    unfold extractOrError
    rw [hc]

/-- C3 witness: `c3_sentinel_record` applied to a document holding one card
whose review text raises, checking the 1:1 correspondence and the
substitution. -/
theorem c3_sentinel_record_witness :
    extractOrError cardReviewError = .errorCard ∧
      (parse_gigs ⟨[cardReviewError], []⟩).1.length = 1 := by
  have h := c3_sentinel_record ⟨[cardReviewError], []⟩
  refine ⟨h.2.1 cardReviewError (by decide), ?_⟩
  rw [h.1]
  decide

/-- C7: URL normalization of extracted listing links: a root-relative link
gets the site origin prepended and its query stripped; an absolute `http`
link keeps everything but the query; anything else is stored unmodified; and
whenever a card's title element carries a non-empty `href`, the record stores
exactly the normalized link.  Concretely,
`"/gigs/foo?source=x"` becomes `"https://www.fiverr.com/gigs/foo"`. -/
theorem c7_url_normalization :
    ∀ (raw : String) (c : Card) (te : TitleEl) (g : GigInfo),
      (pyStartsWith raw "/" = true →
        normalizeGigUrl raw = SITE_ORIGIN ++ stripQuery raw) ∧
      (pyStartsWith raw "/" = false → pyStartsWith raw "http" = true →
        normalizeGigUrl raw = stripQuery raw) ∧
      (pyStartsWith raw "/" = false → pyStartsWith raw "http" = false →
        normalizeGigUrl raw = raw) ∧
      (extract c = .ok g → c.titleEl = some te → te.href = some raw →
        raw.data ≠ [] → g.gig_url = some (normalizeGigUrl raw)) ∧
      normalizeGigUrl "/gigs/foo?source=x" = "https://www.fiverr.com/gigs/foo" := by
  intro raw c te g
  refine ⟨?_, ?_, ?_, ?_, by decide⟩
  · intro h
    unfold normalizeGigUrl
    rw [if_pos h]
  · intro h1 h2
    unfold normalizeGigUrl
    rw [if_neg (by simp [h1]), if_pos h2]
  · intro h1 h2
    unfold normalizeGigUrl
    rw [if_neg (by simp [h1]), if_neg (by simp [h2])]
  · intro hg hte href hraw
    unfold extract at hg
    cases hnr : numReviewsOf c with
    | error e => rw [hnr] at hg; exact absurd hg (by simp)
    | ok nr =>
      rw [hnr] at hg
      simp only [Except.ok.injEq] at hg
      subst hg
      show urlOf c = _
      unfold urlOf
      rw [hte]
      simp only []
      rw [href]
      simp only []
      rw [if_neg hraw]

/-- A card carrying the root-relative example link. -/
def cardWithLink : Card :=
  { emptyCard with titleEl := some ⟨"Title", some "/gigs/foo?source=x"⟩ }

/-- C7 witness: `c7_url_normalization` applied to the concrete card carrying
`"/gigs/foo?source=x"`. -/
theorem c7_url_normalization_witness :
    (⟨some "Title", none, "N/A", "N/A", none, some "0", none,
        some "https://www.fiverr.com/gigs/foo"⟩ : GigInfo).gig_url =
      some (normalizeGigUrl "/gigs/foo?source=x") :=
  (c7_url_normalization "/gigs/foo?source=x" cardWithLink
      ⟨"Title", some "/gigs/foo?source=x"⟩
      ⟨some "Title", none, "N/A", "N/A", none, some "0", none,
        some "https://www.fiverr.com/gigs/foo"⟩).2.2.2.1
    (by decide) (by decide) (by decide) (by decide)

/-- C9: the page parser returns exactly one record per located fragment, in
document order (the record list is the elementwise image of the located card
list); when neither selector tier finds a card it returns the empty sequence
with the `noFragmentsLocated` signal, which is distinct from the
`noneParsed` signal. -/
theorem c9_page_records :
    ∀ doc : Document,
      ((parse_gigs doc).1 = (locatedCards doc).map extractOrError) ∧
      ((locatedCards doc).isEmpty = true → parse_gigs doc = ([], .noFragmentsLocated)) ∧
      ParseSignal.noFragmentsLocated ≠ ParseSignal.noneParsed := by
  intro doc
  refine ⟨?_, ?_, by decide⟩
  · unfold parse_gigs
    by_cases h : (locatedCards doc).isEmpty
    · rw [if_pos h]
      rw [List.isEmpty_iff.mp h]
      rfl
    · rw [if_neg h]
  · intro h
    unfold parse_gigs
    rw [if_pos h]

/-- C9 witness: `c9_page_records` applied to the empty document and to a
one-card document. -/
theorem c9_page_records_witness :
    parse_gigs ⟨[], []⟩ = ([], .noFragmentsLocated) ∧
      (parse_gigs ⟨[emptyCard], []⟩).1 = [extractOrError emptyCard] := by
  refine ⟨(c9_page_records ⟨[], []⟩).2.1 (by decide), ?_⟩
  rw [(c9_page_records ⟨[emptyCard], []⟩).1]
  rfl

/-! ## Claims about the fetch controller and pagination (C4, C5, C6) -/

/-- A page body carrying the first marker phrase. -/
def markerPage : String := "<html>Hmm, something seems to have gone wrong</html>"

/-- C4 counterexample: after a marker page is turned into the minimal
document, `main` still hands that document to the page parser — the loop's
outcome depends on what the parser returns on it (two records appear over the
two pages when the parser yields one record per call, none when it yields
none), so the claim's "without invoking the page parser" is false. -/
theorem c4_counterexample :
    (mainLoop (fun _ => some minimalHtml) (fun _ => [GigRecord.errorCard])).1 =
        [GigRecord.errorCard, GigRecord.errorCard] ∧
      (mainLoop (fun _ => some minimalHtml) (fun _ => ([] : List GigRecord))).1 = [] := by
  constructor <;> decide

/-- C4 (amended): a fetched body containing a marker phrase is classified as
an empty result on the first attempt: the fetch returns the minimal document
with no retry and no failure; the parser, invoked on that (cardless) minimal
document, returns the empty record sequence with the no-fragments signal. -/
theorem c4_empty_marker :
    ∀ (outcomes : Nat → AttemptOutcome) (h : String),
      outcomes 1 = .success h → containsMarker h = true →
      get_page_html outcomes = (.ok (some minimalHtml), 1, []) ∧
        parse_gigs ⟨[], []⟩ = ([], .noFragmentsLocated) := by
  intro outcomes h h1 hm
  constructor
  · simp [get_page_html, RETRY_ATTEMPTS, runRetryAux, getPageHtmlAttempt, h1, hm]
  · rfl

/-- C4 witness: `c4_empty_marker` applied to a concrete marker page. -/
theorem c4_empty_marker_witness :
    get_page_html (fun _ => .success markerPage) = (.ok (some minimalHtml), 1, []) :=
  (c4_empty_marker (fun _ => .success markerPage) markerPage rfl (by decide)).1

/-- C5: with the configured 3 attempts, two transient failures followed by a
clean success make exactly 3 attempts, succeed, and sleep the two backoff
waits in order; every backoff wait lies within the configured bounds and the
waits are non-decreasing; when every attempt is transient the retry ceiling
is reached and the overall fetch fails (the `RetryError` that `main` treats
as a fatal page failure). -/
theorem c5_retry_backoff :
    ∀ (outcomes : Nat → AttemptOutcome) (h : String),
      outcomes 1 = .transient → outcomes 2 = .transient → outcomes 3 = .success h →
      containsMarker h = false →
      get_page_html outcomes = (.ok (some h), 3, [backoffWait 1, backoffWait 2]) ∧
        backoffWait 1 ≤ backoffWait 2 ∧
        (∀ n, RETRY_WAIT_MIN_SECONDS ≤ backoffWait n ∧
          backoffWait n ≤ RETRY_WAIT_MAX_SECONDS) ∧
        (∀ outs : Nat → AttemptOutcome, (∀ n, outs n = .transient) →
          get_page_html outs = (.error (), 3, [backoffWait 1, backoffWait 2])) := by
  intro outcomes h h1 h2 h3 hm
  refine ⟨?_, by decide, ?_, ?_⟩
  · simp [get_page_html, RETRY_ATTEMPTS, runRetryAux, getPageHtmlAttempt, h1, h2, h3, hm]
  · intro n
    unfold backoffWait RETRY_WAIT_MIN_SECONDS RETRY_WAIT_MAX_SECONDS
    exact ⟨Nat.le_max_left _ _, Nat.max_le.mpr ⟨by omega, Nat.min_le_right _ _⟩⟩
  · intro outs houts
    simp [get_page_html, RETRY_ATTEMPTS, runRetryAux, getPageHtmlAttempt,
      houts 1, houts 2, houts 3]

/-- C5 witness: `c5_retry_backoff` applied to a concrete outcome sequence
(transient, transient, success) and to the all-transient sequence; the waits
evaluate to 2 and 4 seconds, inside the configured `[2, 6]`. -/
theorem c5_retry_backoff_witness :
    get_page_html (fun n => if n ≤ 2 then .transient else .success "x") =
        (.ok (some "x"), 3, [2, 4]) ∧
      get_page_html (fun _ => .transient) = (.error (), 3, [2, 4]) := by
  have h := c5_retry_backoff (fun n => if n ≤ 2 then .transient else .success "x") "x"
    rfl rfl rfl (by decide)
  exact ⟨h.1.trans (by decide),
    (h.2.2.2 (fun _ => .transient) (fun _ => rfl)).trans (by decide)⟩

/-- C6: an unexpected (non-WebDriver, non-timeout) error during a fetch
attempt is not retried: the fetch returns the failure value `None` after that
very attempt, whether it was the first attempt or followed a transient one;
and a page whose fetch yields `None` stops the pagination loop at that page
(page 1 here, so the second configured page is never fetched). -/
theorem c6_fatal_not_retried :
    ∀ (outcomes : Nat → AttemptOutcome),
      (outcomes 1 = .otherError → get_page_html outcomes = (.ok none, 1, [])) ∧
      (outcomes 1 = .transient → outcomes 2 = .otherError →
        get_page_html outcomes = (.ok none, 2, [backoffWait 1])) ∧
      (∀ (fetch : Nat → Option String) (parse : String → List GigRecord),
        fetch 1 = none → mainLoop fetch parse = ([], 1)) := by
  intro outcomes
  refine ⟨?_, ?_, ?_⟩
  · intro h1
    simp [get_page_html, RETRY_ATTEMPTS, runRetryAux, getPageHtmlAttempt, h1]
  · intro h1 h2
    simp [get_page_html, RETRY_ATTEMPTS, runRetryAux, getPageHtmlAttempt, h1, h2]
  · intro fetch parse hf
    simp [mainLoop, MAX_PAGES_TO_SCRAPE, mainLoopAux, hf]

/-- C6 witness: `c6_fatal_not_retried` applied to the always-unexpected-error
outcome sequence and an always-failing fetch. -/
theorem c6_fatal_not_retried_witness :
    get_page_html (fun _ => .otherError) = (.ok none, 1, []) ∧
      mainLoop (fun _ => none) (fun _ => []) = ([], 1) := by
  have h := c6_fatal_not_retried (fun _ => .otherError)
  exact ⟨h.1 rfl, h.2.2 (fun _ => none) (fun _ => []) rfl⟩
